import Mathlib

/-!
Shallow embedding of the PyAxols core (pyaxols/atypes/seq.py,
pyaxols/atypes/table.py, pyaxols/utils.py) and proofs about the claims of
its specification.

Values stored in columns are modelled by `Val` (Python ints, strs, `None`,
and opaque `object()` instances); declared column dtypes by `Dtype`
(`int`, `str`, `object`).  Python exceptions are modelled with
`Except PyErr`.  Mutating methods are modelled as functions returning the
new state; where the source's aliasing makes a mutation visible through a
second reference (`copy.copy` sharing the `_data` dict), the model returns
the states of both references.
-/

deriving instance DecidableEq for Except

namespace PyAxols

/-- A Python runtime value as stored in a column: an `int`, a `str`,
`None`, or a bare `object()` instance (as produced by `object()`, the
default of the `object` dtype). -/
inductive Val where
  | vInt (n : Int)
  | vStr (s : String)
  | vNone
  | vObj
deriving DecidableEq, Repr

/-- A declared column dtype: `int`, `str` or `object`. -/
inductive Dtype where
  | dInt
  | dStr
  | dObj
deriving DecidableEq, Repr

/-- The kinds of Python exception the embedded code can raise. -/
inductive PyErr where
  | typeError
  | valueError
  | indexError
  | keyError
deriving DecidableEq, Repr

/-- Python `isinstance(v, d)`.  Every value (including `None`) is an
instance of `object`. -/
def isinstanceV (v : Val) (d : Dtype) : Bool :=
  match d, v with
  | .dObj, _ => true
  | .dInt, .vInt _ => true
  | .dStr, .vStr _ => true
  | _, _ => false

/-- Python `d(v)`: calling the dtype on a value, as done by the `Seq._data`
setter ("cast to dtype but keep nones").  `int(...)` of a non-numeric
string raises `ValueError`; `int(object())` and `int(None)` raise
`TypeError`; `str(...)` succeeds on everything. -/
def coerceVal (d : Dtype) (v : Val) : Except PyErr Val :=
  match d, v with
  | .dObj, v => .ok v
  | .dInt, .vInt n => .ok (.vInt n)
  | .dInt, .vStr s =>
    match s.toInt? with
    | some n => .ok (.vInt n)
    | none => .error .valueError
  | .dInt, _ => .error .typeError
  | .dStr, .vInt n => .ok (.vStr (toString n))
  | .dStr, .vStr s => .ok (.vStr s)
  | .dStr, .vNone => .ok (.vStr "None")
  | .dStr, .vObj => .ok (.vStr "<object>")

/-- Class `Seq`: a named, typed sequence of values (pyaxols/atypes/seq.py). -/
structure Seq where
  name : String
  dtype : Dtype
  data : List Val
deriving DecidableEq, Repr

namespace Seq

/-- The `Seq(data, name, dtype)` constructor.  The `_data` property setter
coerces every non-`None` element by calling `dtype(element)`, except when
the dtype is `object`, in which case data passes through unchanged. -/
def init (data : List Val) (name : String) (dtype : Dtype) : Except PyErr Seq :=
  if dtype = .dObj then
    .ok ⟨name, dtype, data⟩
  else do
    let d ← data.mapM (fun v => if v = .vNone then pure .vNone else coerceVal dtype v)
    pure ⟨name, dtype, d⟩

/-- Models `Seq.append`: the source body is just `self.__data.append(value)`.
Despite the docstring's "Raises TypeError if value is not of type dtype",
no check of any kind is performed. -/
def append (s : Seq) (v : Val) : Seq :=
  ⟨s.name, s.dtype, s.data ++ [v]⟩

/-- Models `Seq.find`: `self.data.index(value)` — first index holding an equal
value, `ValueError` when absent. -/
def find (s : Seq) (v : Val) : Except PyErr Nat :=
  match s.data.findIdx? (· == v) with
  | some i => .ok i
  | none => .error .valueError

/-- The right operand of `Seq.__add__`: a scalar, another `Seq`, or a
plain list (e.g. `[None] * n` from `grow`). -/
inductive AddOther where
  | scalar (v : Val)
  | seqO (s : Seq)
  | listO (l : List Val)

/-- Python `isinstance(other, self.dtype)` for the first branch of `Seq.__add__`.
For dtype `object` this is true of every Python object — lists and `Seq`s
included. -/
def isinstanceOther (o : AddOther) (d : Dtype) : Bool :=
  match d, o with
  | .dObj, _ => true
  | .dInt, .scalar (.vInt _) => true
  | .dStr, .scalar (.vStr _) => true
  | _, _ => false

/-- Python `a + other` for a column element `a`, as evaluated in the
element-wise branch of `Seq.__add__`.  `int + int` adds, `str + str`
concatenates; every other combination (e.g. `int + list`, `None + list`)
raises `TypeError`. -/
def pyAddVal (a : Val) (o : AddOther) : Except PyErr Val :=
  match a, o with
  | .vInt m, .scalar (.vInt n) => .ok (.vInt (m + n))
  | .vStr s, .scalar (.vStr t) => .ok (.vStr (s ++ t))
  | _, _ => .error .typeError

/-- Models `Seq.__add__`: if `other` is an instance of the declared dtype, add it
to every element; else if it is a `Seq` or a `Sequence`, concatenate; else
`TypeError`.  (A Python `str` is a `Sequence`, but `list + str` raises
`TypeError`.)  Each returning branch goes through the `Seq` constructor,
hence through `_data`-setter coercion. -/
def add (s : Seq) (o : AddOther) : Except PyErr Seq :=
  if isinstanceOther o s.dtype then do
    let l ← s.data.mapM (fun a => pyAddVal a o)
    Seq.init l s.name s.dtype
  else
    match o with
    | .seqO t => Seq.init (s.data ++ t.data) s.name s.dtype
    | .listO l => Seq.init (s.data ++ l) s.name s.dtype
    | .scalar (.vStr _) => .error .typeError
    | .scalar _ => .error .typeError

/-- Models `Seq.grow`: negative `n` raises `ValueError`, `n = 0` returns the very
same column, otherwise `self + [None] * n`. -/
def grow (s : Seq) (n : Int) : Except PyErr Seq :=
  if n < 0 then .error .valueError
  else if n = 0 then .ok s
  else s.add (.listO (List.replicate n.toNat .vNone))

/-- Models `Seq.__delitem__`: `del self.data[position]` (IndexError when out of
range; only non-negative positions are used by the table code modelled
here). -/
def delItem (s : Seq) (i : Nat) : Except PyErr Seq :=
  if i < s.data.length then .ok ⟨s.name, s.dtype, s.data.eraseIdx i⟩
  else .error .indexError

end Seq

/-- Python `dtype()`: the default value of a dtype, used by `argsort` as the sort
key of `None` entries.  `int() = 0`, `str() = ""`, `object()` is a fresh
object, comparable with nothing (not even another `object()`). -/
def dtypeDefault : Dtype → Val
  | .dInt => .vInt 0
  | .dStr => .vStr ""
  | .dObj => .vObj

/-- Rank of a value's kind; used only to make `valLeB` a total transitive
relation on pairs of kinds that Python would refuse to compare (such pairs
are rejected by `argsort` before any comparison happens). -/
def kindRank : Val → Nat
  | .vNone => 0
  | .vInt _ => 1
  | .vStr _ => 2
  | .vObj => 3

/-- Python `<=` on sort keys: ints by numeric order, strs lexicographic.
Cross-kind pairs (which raise `TypeError` in Python and are never reached
on inputs `argsort` accepts) are ordered by `kindRank` so that the
relation is total and transitive on all of `Val`. -/
def valLeB (a b : Val) : Bool :=
  match a, b with
  | .vInt x, .vInt y => decide (x ≤ y)
  | .vStr x, .vStr y => decide (x ≤ y)
  | _, _ => decide (kindRank a ≤ kindRank b)

/-- The keys `utils.argsort` sorts by: `seq[x] if seq[x] is not None else
dtype()`. -/
def argsortKeys (seq : List Val) (dtype : Dtype) : List Val :=
  seq.map (fun v => if v = .vNone then dtypeDefault dtype else v)

def isIntV : Val → Bool
  | .vInt _ => true
  | _ => false

def isStrV : Val → Bool
  | .vStr _ => true
  | _ => false

/-- Whether Python's `sorted` completes without a comparison `TypeError` on
these keys: with at most one key nothing is compared; with two or more,
CPython's sort compares every adjacent pair while scanning for runs, so it
raises unless the keys are all ints or all strs (`None` never occurs as a
key: `argsort` replaced it by the dtype default). -/
def argsortComparable (keys : List Val) : Bool :=
  keys.length ≤ 1 || keys.all isIntV || keys.all isStrV

/-- The comparison on row indices used to sort `range(len(seq))`:
`key(i) <= key(j)`, flipped by `reverse=desc`.  (Python's `reverse=True`
sorts descending while still keeping equal keys in their original order.) -/
def argsortLe (keys : List Val) (desc : Bool) (i j : Nat) : Bool :=
  if desc then valLeB (keys.getD j .vNone) (keys.getD i .vNone)
  else valLeB (keys.getD i .vNone) (keys.getD j .vNone)

def argsortRel (keys : List Val) (desc : Bool) (i j : Nat) : Prop :=
  argsortLe keys desc i j = true

instance (keys : List Val) (desc : Bool) : DecidableRel (argsortRel keys desc) :=
  fun i j => inferInstanceAs (Decidable (argsortLe keys desc i j = true))

/-- Function `utils.argsort(seq, dtype, desc)`:
`sorted(range(len(seq)), key=lambda x: seq[x] if seq[x] is not None else dtype(), reverse=desc)`.
Python's `sorted` is a stable sort; every stable sort with respect to the
same total transitive comparison produces the same list, so it is modelled
by `List.insertionSort` (which is stable).  Comparing keys of different
kinds — including the `object()` default injected for `None` under dtype
`object` — raises `TypeError` in Python, modelled by the
`argsortComparable` guard. -/
def argsort (seq : List Val) (dtype : Dtype) (desc : Bool) : Except PyErr (List Nat) :=
  let keys := argsortKeys seq dtype
  if argsortComparable keys then
    .ok ((List.range seq.length).insertionSort (argsortRel keys desc))
  else .error .typeError

/-- Class `Table`: a wrapper around an insertion-ordered `dict[str, Seq]`
(pyaxols/atypes/table.py). -/
structure Table where
  data : List (String × Seq)
deriving DecidableEq, Repr

/-- Look a key up in an insertion-ordered dict. -/
def dictGet? (d : List (String × Seq)) (k : String) : Option Seq :=
  (d.find? (fun p => p.1 == k)).map (fun p => p.2)

/-- Python `d[k] = v` on an insertion-ordered dict: replaces in place when the
key exists, appends otherwise. -/
def dictSet (d : List (String × Seq)) (k : String) (v : Seq) : List (String × Seq) :=
  if d.any (fun p => p.1 == k) then
    d.map (fun p => if p.1 = k then (k, v) else p)
  else d ++ [(k, v)]

/-- Python `{**a, **b}`: b's entries override a's, new keys append in b's order. -/
def dictMerge (a b : List (String × Seq)) : List (String × Seq) :=
  b.foldl (fun acc p => dictSet acc p.1 p.2) a

namespace Table

/-- One pass of `Table._smooth`: replace each column by itself grown to
length `m`, left to right.  The source loop assigns `self._data[k] =
v.grow(...)` one column at a time, so if some `grow` raises, the columns
already processed keep their grown value and the rest stay untouched; the
raised error is reported alongside that partially updated state. -/
def smoothGo (m : Nat) : List (String × Seq) → List (String × Seq) × Option PyErr
  | [] => ([], none)
  | (k, s) :: rest =>
    match s.grow ((m : Int) - s.data.length) with
    | .ok s' =>
      let r := smoothGo m rest
      ((k, s') :: r.1, r.2)
    | .error e => ((k, s) :: rest, some e)

/-- Models `Table._smooth`: grow every column to the length of the longest one.
`max` of an empty generator (a table with no columns) raises `ValueError`. -/
def smoothed (d : List (String × Seq)) : List (String × Seq) × Option PyErr :=
  match d with
  | [] => ([], some .valueError)
  | _ => smoothGo ((d.map (fun p => p.2.data.length)).foldl max 0) d

/-- Models `Table.__init__`: store the dict, then `try: self._smooth() except
Exception: pass` — a failure inside `_smooth` is swallowed, leaving the
(possibly ragged, possibly partially smoothed) data in place. -/
def init (d : List (String × Seq)) : Table :=
  ⟨(smoothed d).1⟩

/-- Models `Table.cols`. -/
def cols (t : Table) : List String :=
  t.data.map (fun p => p.1)

/-- Models `Table.dtypes`. -/
def dtypes (t : Table) : List Dtype :=
  t.data.map (fun p => p.2.dtype)

/-- Models `Table.__len__`: `len(self._data)` — the number of *columns*. -/
def len (t : Table) : Nat :=
  t.data.length

/-- Models `Table.shape`: `(column_count, len(first column))`, or `(0, 0)` when
there are no columns. -/
def shape (t : Table) : Nat × Nat :=
  match t.data with
  | [] => (0, 0)
  | c :: _ => (t.data.length, c.2.data.length)

/-- Models `Table.i(index)`: materialize row `index` — one element per column in
order; `IndexError` as soon as some column is too short. -/
def i (t : Table) (k : Nat) : Except PyErr (List Val) :=
  t.data.mapM (fun p =>
    match p.2.data.get? k with
    | some v => Except.ok v
    | none => Except.error PyErr.indexError)

/-- Models `Table.empty(cols, dtypes)`: zero-row columns built by `Seq.empty`
(whose constructor cannot fail on empty data), zipped positionally. -/
def empty (cs : List String) (ds : List Dtype) : Table :=
  init ((cs.zip ds).map (fun p => (p.1, ⟨p.1, p.2, []⟩)))

/-- Models `Table.from_seqs`: wraps the given columns by name after checking name
uniqueness. -/
def from_seqs (seqs : List Seq) : Except PyErr Table :=
  if (seqs.map (fun s => s.name)).Nodup then
    .ok (init (seqs.map (fun s => (s.name, s))))
  else .error .valueError

/-- Models `Table._create_cols` for raw (non-`Seq`) data: with `cols=None` the
names are `unnamed_i` (but `data[0]` raises `IndexError` on empty data);
otherwise the given names must match `data` in length and be unique. -/
def create_cols (cs : Option (List String)) (data : List (List Val)) :
    Except PyErr (List String) :=
  match cs with
  | none =>
    match data with
    | [] => .error .indexError
    | _ => .ok ((List.range data.length).map (fun k => "unnamed_" ++ toString k))
  | some cs =>
    if cs.length ≠ data.length then .error .valueError
    else if ¬ cs.Nodup then .error .valueError
    else .ok cs

/-- Models `Table.from_iterable(data, cols, dtypes)`: per-column raw sequences,
names from `_create_cols`, dtypes defaulting to `object`, each column built
through the `Seq` constructor (hence coerced), then `Table(...)`. -/
def from_iterable (data : List (List Val)) (cs : Option (List String))
    (ds : Option (List Dtype)) : Except PyErr Table := do
  let names ← create_cols cs data
  let ds ← match ds with
    | none => pure (data.map (fun _ => Dtype.dObj))
    | some ds =>
      if ds.length ≠ data.length then Except.error PyErr.valueError
      else pure ds
  let seqs ← (names.zip (data.zip ds)).mapM (fun p => do
    let s ← Seq.init p.2.1 p.1 p.2.2
    pure (p.1, s))
  pure (init seqs)

/-- Models `Table.append_row`: `ValueError` when the row length differs from the
column count, `TypeError` when some value is neither `None` nor an
instance of its column's dtype.  Both checks run over the whole row before
the mutation loop appends each value to its column. -/
def append_row (t : Table) (row : List Val) : Except PyErr Table :=
  if row.length ≠ (shape t).1 then .error .valueError
  else if ¬ ((row.zip (dtypes t)).all fun p => isinstanceV p.1 p.2 || p.1 == .vNone) then
    .error .typeError
  else .ok ⟨(t.data.zip row).map (fun p => (p.1.1, p.1.2.append p.2))⟩

/-- Models `Table.drop_col`: `del self._data[col]` (`KeyError` when absent). -/
def drop_col (t : Table) (c : String) : Except PyErr Table :=
  if t.data.any (fun p => p.1 == c) then
    .ok ⟨t.data.filter (fun p => p.1 != c)⟩
  else .error .keyError

/-- Models `Table.dropped_col`: `copy(self).drop_col(col)`.  `copy.copy` copies
the instance `__dict__` shallowly, so the copy's `_data` is the *same*
dict object as the receiver's, and `drop_col`'s `del` mutates both.  The
value is the pair (returned table, receiver after the call) — they are the
same table. -/
def dropped_col (t : Table) (c : String) : Except PyErr (Table × Table) := do
  let r ← t.drop_col c
  pure (r, r)

/-- Models `Table.drop_row`: `del self._data[col][index]` for every column.  (On
the inputs used by the theorems below the index is valid for every column,
so the partially-deleted state of a failing run is never observed.) -/
def drop_row (t : Table) (k : Nat) : Except PyErr Table := do
  let d ← t.data.mapM (fun p => do
    let s ← p.2.delItem k
    pure (p.1, s))
  pure ⟨d⟩

/-- Models `Table.dropped_row`: `copy(self).drop_row(index)`.  As with
`dropped_col`, `copy.copy` shares `_data` (and the `Seq` objects inside
it), so the in-place row deletion is visible through the receiver: the
pair (returned table, receiver after the call) has equal components. -/
def dropped_row (t : Table) (k : Nat) : Except PyErr (Table × Table) := do
  let r ← t.drop_row k
  pure (r, r)

/-- The loop `for r in self: if r == tuple(row): return True` of
`contains_row`, driven by the index list the iterator protocol walks. -/
def containsRowGo (t : Table) (row : List Val) : List Nat → Except PyErr Bool
  | [] => .ok false
  | k :: ks => do
    let r ← t.i k
    if r = row then pure true else containsRowGo t row ks

/-- Models `Table.contains_row`: checks the row length against the column count,
then iterates the table.  `Table.__next__` yields `self.i(self.it)` only
while `self.it < len(self)`, i.e. iteration visits indices
`0, ..., len(self._data) - 1` — the *column* count, not the row count. -/
def contains_row (t : Table) (row : List Val) : Except PyErr Bool :=
  if row.length ≠ (shape t).1 then .error .valueError
  else containsRowGo t row (List.range t.len)

/-- The rows produced by iterating a table with the `__iter__`/`__next__`
protocol: `i(0), ..., i(len(self) - 1)` where `len(self)` is the column
count; `IndexError` escapes as soon as `i` hits a too-short column. -/
def iterRows (t : Table) : Except PyErr (List (List Val)) :=
  (List.range t.len).mapM t.i

/-- Python `dict.keys()` equality is *set* equality of the key views. -/
def sameKeys (a b : Table) : Bool :=
  (a.cols.all (fun c => c ∈ b.cols)) && (b.cols.all (fun c => c ∈ a.cols))

/-- The body of `Table.union`'s copy loops: fetch the next row from `src`
(through the table iterator), append it to `acc` unless already present. -/
def unionGo (src : Table) : Table → List Nat → Except PyErr Table
  | acc, [] => .ok acc
  | acc, k :: ks => do
    let row ← src.i k
    let b ← acc.contains_row row
    let acc ← if b then pure acc else acc.append_row row
    unionGo src acc ks

/-- Models `Table.union`: requires equal key sets, then copies `other`'s rows and
then `self`'s rows into a fresh empty table, skipping duplicates. -/
def union (t other : Table) : Except PyErr Table :=
  if ¬ sameKeys t other then .error .valueError
  else do
    let e0 := empty t.cols t.dtypes
    let e1 ← unionGo other e0 (List.range other.len)
    unionGo t e1 (List.range t.len)

/-- Models `Table.union_all`: requires equal key sets, then concatenates the
columns pairwise (`self._data[k] + other._data[k]`, i.e. `Seq.__add__`)
and wraps the result in `Table(...)`. -/
def union_all (t other : Table) : Except PyErr Table :=
  if ¬ sameKeys t other then .error .valueError
  else do
    let d ← t.data.mapM (fun p =>
      match dictGet? other.data p.1 with
      | some o => do
        let s ← p.2.add (.seqO o)
        pure (p.1, s)
      | none => Except.error PyErr.keyError)
    pure (init d)

/-- Models `Table.concat`: `Table({**self._data, **other._data})` — schema-level
merge; smoothing (inside the constructor) reconciles row counts. -/
def concat (t other : Table) : Table :=
  init (dictMerge t.data other.data)

/-- Models `Table.__getitem__` with a string key (`KeyError` when absent). -/
def getCol (t : Table) (c : String) : Except PyErr Seq :=
  match dictGet? t.data c with
  | some s => .ok s
  | none => .error .keyError

/-- Models `Table.left_join`: checks the key columns' dtypes and that the shared
column names are exactly the join key (when `left_on == right_on`) or
nothing; then, for each value of `self[left_on]`, appends to a fresh table
over `right`'s schema either the first matching row of `right` (linear
`find`) or a row of `None`s; drops from it the columns shared with `self`;
and concatenates. -/
def left_join (t right : Table) (left_on right_on : String) : Except PyErr Table := do
  let sL ← t.getCol left_on
  let sR ← right.getCol right_on
  if sL.dtype ≠ sR.dtype then Except.error PyErr.valueError
  else do
  let common : Nat := if left_on = right_on then 1 else 0
  if ((t.cols.filter (fun c => c ∈ right.cols)).dedup).length ≠ common then
    Except.error PyErr.valueError
  else do
  let e0 := empty right.cols right.dtypes
  let empt ← sL.data.foldlM (fun acc v =>
    match sR.data.findIdx? (· == v) with
    | some idx => do
      let row ← right.i idx
      acc.append_row row
    | none => acc.append_row (List.replicate (shape right).1 .vNone)) e0
  let empt ← t.cols.foldlM (fun acc c =>
    if c ∈ right.cols then acc.drop_col c else pure acc) empt
  pure (t.concat empt)

/-- Models `Table.sorted(column, desc)`: `ValueError` for an undeclared column;
otherwise reorders every column by `argsort` of the sort column (the
source recomputes the same `argsort` for each column; it is computed once
here) and rebuilds the table through `from_iterable` with the original
names and dtypes. -/
def sorted (t : Table) (column : String) (desc : Bool) : Except PyErr Table := do
  if ¬ (column ∈ t.cols) then Except.error PyErr.valueError
  else do
  let s ← t.getCol column
  let perm ← argsort s.data s.dtype desc
  let grid ← t.data.mapM (fun p => perm.mapM (fun k =>
    match p.2.data.get? k with
    | some v => Except.ok v
    | none => Except.error PyErr.indexError))
  from_iterable grid (some t.cols) (some t.dtypes)

/-- Models `Table.sorted_by_pattern(pattern)`: compares `len(pattern)` with
`len(self)` — the *column* count — raising `ValueError` on mismatch; the
body then evaluates `argsort(pattern)`, but `utils.argsort` has a second
required positional parameter `dtype`, so the call itself raises
`TypeError` before any reordering can happen. -/
def sorted_by_pattern (t : Table) (pattern : List Int) : Except PyErr Table :=
  if pattern.length ≠ t.len then .error .valueError
  else .error .typeError

end Table

/-- The mutable state of `Table.group_by`'s loop.  `groups` plays the role
of the Python heap: every `Table.empty(...)` object the loop ever
allocated, in allocation order.  `res` is the source's `res` list, holding
*references* (indices into `groups`) — the source appends the same object
to `res` more than once, and later `append_row` mutations remain visible
through every occurrence.  `cur` is the reference held by the loop
variable `empt`. -/
structure GroupState where
  groups : List Table
  res : List Nat
  cur : Nat
deriving DecidableEq, Repr

namespace Table

/-- The body of `group_by`'s loop over `enumerate(sorted[col])`: whenever
the value changes from the previous one, the source appends the current
`empt` to `res`, allocates a fresh empty table, *and appends that fresh
table to `res` as well*; then (in every iteration) it appends row `i` of
the sorted table to the current `empt`. -/
def groupGo (st : Table) : GroupState → Val → List (Nat × Val) → Except PyErr GroupState
  | gs, _, [] => .ok gs
  | gs, prev, (k, val) :: rest => do
    let gs ←
      if val ≠ prev then
        pure { groups := gs.groups ++ [Table.empty st.cols st.dtypes],
               res := gs.res ++ [gs.cur, gs.groups.length],
               cur := gs.groups.length }
      else pure gs
    let row ← st.i k
    let g ← (gs.groups.getD gs.cur (Table.empty [] [])).append_row row
    groupGo st { gs with groups := gs.groups.set gs.cur g } val rest

/-- Models `Table.group_by(col)`: sort by `col` ascending, seed `prev_val` with
the first value of the sorted column (`IndexError` on an empty column),
run the loop, and return the tables `res` refers to. -/
def group_by (t : Table) (c : String) : Except PyErr (List Table) := do
  let st ← t.sorted c false
  let sc ← st.getCol c
  let v0 ← match sc.data.get? 0 with
    | some v => Except.ok v
    | none => Except.error PyErr.indexError
  let gs ← groupGo st
    { groups := [Table.empty t.cols t.dtypes], res := [], cur := 0 } v0 sc.data.enum
  pure (gs.res.map (fun ix => gs.groups.getD ix (Table.empty [] [])))

/-- The spec's smoothness invariant: every column has the length recorded
in the second component of `shape`. -/
def isSmooth (t : Table) : Bool :=
  t.data.all (fun p => p.2.data.length == (shape t).2)

end Table

/-! ## Helper lemmas about the embedding -/

/-- The first component of `shape` is always the column count. -/
theorem Table.shape_fst (t : Table) : (Table.shape t).1 = t.data.length := by
  cases t with
  | mk d => cases d <;> simp [Table.shape]

/-- Row `k` of a table as a pure value (total version of `Table.i`,
meaningful when `k` is in range for every column). -/
def Table.rowAtD (t : Table) (k : Nat) : List Val :=
  t.data.map (fun p => p.2.data.getD k .vNone)

theorem exc_bind_ok {α β : Type} (a : α) (f : α → Except PyErr β) :
    (Except.ok a : Except PyErr α) >>= f = f a := rfl

theorem exc_bind_error {α β : Type} (e : PyErr) (f : α → Except PyErr β) :
    (Except.error e : Except PyErr α) >>= f = .error e := rfl

theorem exc_pure {α : Type} (a : α) : (pure a : Except PyErr α) = .ok a := rfl

/-- Running `mapM` over `Except` succeeds pointwise. -/
theorem mapM_ok {α β : Type} (f : α → Except PyErr β) (g : α → β) :
    ∀ l : List α, (∀ a ∈ l, f a = .ok (g a)) → l.mapM f = .ok (l.map g) := by
  intro l
  induction l with
  | nil => intro _; rfl
  | cons a l ih =>
    intro h
    rw [List.mapM_cons, h a (by simp), ih (fun b hb => h b (by simp [hb]))]
    rfl

/-- Running `mapM` over `Except` propagates the first error. -/
theorem mapM_error_at {α β : Type} (f : α → Except PyErr β) (e : PyErr)
    (l₁ : List α) (x : α) (l₂ : List α)
    (h₁ : ∀ a ∈ l₁, ∃ b, f a = .ok b) (hx : f x = .error e) :
    (l₁ ++ x :: l₂).mapM f = .error e := by
  induction l₁ with
  | nil =>
    rw [List.nil_append, List.mapM_cons, hx]
    rfl
  | cons a l₁ ih =>
    obtain ⟨b, hb⟩ := h₁ a (by simp)
    rw [List.cons_append, List.mapM_cons, hb]
    have := ih (fun c hc => h₁ c (by simp [hc]))
    simp only [bind, Except.bind, this]

/-- A value that is `None` or an instance of a non-`object` dtype is left
unchanged by `dtype(...)` coercion. -/
theorem coerce_of_wellTyped {d : Dtype} {v : Val}
    (h : v = .vNone ∨ isinstanceV v d = true) (hv : v ≠ .vNone) :
    coerceVal d v = .ok v := by
  cases d <;> cases v <;> simp_all [coerceVal, isinstanceV]

/-- The `Seq` constructor returns its input unchanged when every element
is `None` or already an instance of the dtype. -/
theorem Seq.init_of_wellTyped (data : List Val) (name : String) (dtype : Dtype)
    (h : ∀ v ∈ data, v = .vNone ∨ isinstanceV v dtype = true) :
    Seq.init data name dtype = .ok ⟨name, dtype, data⟩ := by
  unfold Seq.init
  by_cases hd : dtype = .dObj
  · simp [hd]
  · rw [if_neg hd]
    rw [mapM_ok _ id data ?_]
    · simp
    · intro v hv
      by_cases hn : v = .vNone
      · rw [if_pos hn, hn]
        rfl
      · rw [if_neg hn, coerce_of_wellTyped (h v hv) hn]
        rfl

/-- Folding `max` over a non-empty constant list gives the constant. -/
theorem foldl_max_const (n : Nat) :
    ∀ l : List Nat, l ≠ [] → (∀ m ∈ l, m = n) → l.foldl max 0 = n := by
  have aux : ∀ (l : List Nat) (a : Nat), (∀ m ∈ l, m = n) → a ≤ n →
      l.foldl max a = max a n ∨ l.foldl max a = a := by
    intro l
    induction l with
    | nil => intro a _ _; right; rfl
    | cons m l ih =>
      intro a h ha
      have hm : m = n := h m (by simp)
      subst hm
      rcases ih (max a m) (fun q hq => h q (by simp [hq])) (by omega) with h' | h' <;>
        rw [List.foldl_cons] <;> omega
  intro l hne h
  cases l with
  | nil => exact absurd rfl hne
  | cons m l =>
    have hm : m = n := h m (by simp)
    subst hm
    rcases aux l (max 0 m) (fun q hq => h q (by simp [hq])) (by omega) with h' | h' <;>
      rw [List.foldl_cons] <;> omega

/-- The pass of `_smooth` is the identity on a dict whose columns already share one
common length (each `grow` is called with `n = 0`). -/
theorem Table.smoothGo_id (n : Nat) :
    ∀ d : List (String × Seq), (∀ p ∈ d, p.2.data.length = n) →
      Table.smoothGo n d = (d, none) := by
  intro d
  induction d with
  | nil => intro _; rfl
  | cons p d ih =>
    intro h
    obtain ⟨k, s⟩ := p
    have hs : s.data.length = n := h (k, s) (by simp)
    unfold Table.smoothGo
    rw [hs]
    simp only [sub_self]
    rw [show Seq.grow s 0 = .ok s from by simp [Seq.grow]]
    rw [ih (fun q hq => h q (by simp [hq]))]

/-- Constructing a `Table` from equal-length columns keeps them unchanged. -/
theorem Table.init_id (d : List (String × Seq)) (n : Nat)
    (h : ∀ p ∈ d, p.2.data.length = n) : Table.init d = ⟨d⟩ := by
  unfold Table.init Table.smoothed
  cases hd : d with
  | nil => rfl
  | cons p rest =>
    have hne : (p :: rest).map (fun p => p.2.data.length) ≠ [] := by simp
    rw [foldl_max_const n _ hne ?_, Table.smoothGo_id n _ (hd ▸ h)]
    intro m hm
    obtain ⟨q, hq, rfl⟩ := List.mem_map.mp hm
    exact h q (hd ▸ hq)

/-- Evaluating `Table.empty` materializes exactly the zipped empty columns. -/
theorem Table.empty_eq (cs : List String) (ds : List Dtype) :
    Table.empty cs ds = ⟨(cs.zip ds).map (fun p => (p.1, ⟨p.1, p.2, []⟩))⟩ := by
  unfold Table.empty
  exact Table.init_id _ 0 (by intro p hp; obtain ⟨q, _, rfl⟩ := List.mem_map.mp hp; rfl)

/-- On a smooth table, `i(k)` succeeds exactly on the in-range rows and
returns the materialized row. -/
theorem Table.i_ok (t : Table) (k : Nat) (hs : t.isSmooth = true)
    (hk : k < (Table.shape t).2) : t.i k = .ok (t.rowAtD k) := by
  unfold Table.i Table.rowAtD
  apply mapM_ok
  intro p hp
  have hlen : p.2.data.length = (Table.shape t).2 := by
    have := (List.all_eq_true.mp hs) p hp
    simpa using this
  have : k < p.2.data.length := by omega
  rw [List.get?_eq_get this]
  simp [List.getElem?_eq_getElem this, List.getD]

/-- On a smooth table with at least one column, `i(k)` raises `IndexError`
for every out-of-range `k`. -/
theorem Table.i_error (t : Table) (k : Nat) (hs : t.isSmooth = true)
    (hne : t.data ≠ []) (hk : (Table.shape t).2 ≤ k) : t.i k = .error .indexError := by
  unfold Table.i
  cases hd : t.data with
  | nil => exact absurd hd hne
  | cons p rest =>
    have hlen : p.2.data.length = (Table.shape t).2 := by
      have := (List.all_eq_true.mp hs) p (by rw [hd]; simp)
      simpa using this
    have hnone : p.2.data.get? k = none := by
      rw [List.get?_eq_none]
      omega
    rw [show (p :: rest : List (String × Seq)) = [] ++ p :: rest from rfl]
    apply mapM_error_at _ _ [] p rest (by simp)
    rw [hnone]

/-- On a smooth table, the `contains_row` scan over in-range indices
returns whether some visited row equals the probe. -/
theorem Table.containsRowGo_ok (t : Table) (row : List Val) (hs : t.isSmooth = true) :
    ∀ ks : List Nat, (∀ k ∈ ks, k < (Table.shape t).2) →
      Table.containsRowGo t row ks = .ok (decide (row ∈ ks.map (Table.rowAtD t))) := by
  intro ks
  induction ks with
  | nil => intro _; rfl
  | cons k ks ih =>
    intro h
    unfold Table.containsRowGo
    rw [Table.i_ok t k hs (h k (by simp))]
    simp only [bind, Except.bind]
    by_cases he : Table.rowAtD t k = row
    · rw [if_pos he]
      have hm : row ∈ (k :: ks).map (Table.rowAtD t) := by
        rw [List.map_cons, he]
        exact List.mem_cons_self _ _
      rw [decide_eq_true hm]
      rfl
    · rw [if_neg he]
      rw [ih (fun q hq => h q (by simp [hq]))]
      have : (row ∈ Table.rowAtD t k :: ks.map (Table.rowAtD t)) ↔
          row ∈ ks.map (Table.rowAtD t) := by
        constructor
        · intro hm
          rcases List.mem_cons.mp hm with h1 | h1
          · exact absurd h1.symm he
          · exact h1
        · intro hm
          exact List.mem_cons.mpr (Or.inr hm)
      simp [this]

/-! ### Properties of the ranking comparison -/

theorem valLeB_refl (a : Val) : valLeB a a = true := by
  cases a <;> simp [valLeB]

theorem valLeB_total (a b : Val) : valLeB a b = true ∨ valLeB b a = true := by
  cases a <;> cases b <;> simp [valLeB, kindRank] <;>
    first
    | omega
    | exact le_total _ _

theorem valLeB_trans (a b c : Val) (h1 : valLeB a b = true) (h2 : valLeB b c = true) :
    valLeB a c = true := by
  cases a <;> cases b <;> cases c <;> simp_all [valLeB, kindRank] <;>
    first
    | omega
    | exact le_trans h1 h2

instance (keys : List Val) (desc : Bool) : IsTotal Nat (argsortRel keys desc) where
  total i j := by
    unfold argsortRel argsortLe
    cases desc
    · simpa using valLeB_total (keys.getD i .vNone) (keys.getD j .vNone)
    · simpa using (valLeB_total (keys.getD i .vNone) (keys.getD j .vNone)).symm

instance (keys : List Val) (desc : Bool) : IsTrans Nat (argsortRel keys desc) where
  trans i j k h1 h2 := by
    unfold argsortRel argsortLe at h1 h2 ⊢
    cases desc <;> simp only [Bool.false_eq_true, if_false, if_true] at h1 h2 ⊢
    · exact valLeB_trans _ _ _ h1 h2
    · exact valLeB_trans _ _ _ h2 h1

/-- A strictly increasing in-range pair of indices forms a sublist of
`range n`. -/
theorem pair_sublist_range {i j n : Nat} (hij : i < j) (hjn : j < n) :
    [i, j].Sublist (List.range n) := by
  have hn : n = j + (n - j) := by omega
  rw [hn, List.range_add]
  have hs1 : [i].Sublist (List.range j) :=
    List.singleton_sublist.mpr (List.mem_range.mpr hij)
  have hnj : n - j = (n - j - 1) + 1 := by omega
  have hs2 : [j].Sublist (List.map (j + ·) (List.range (n - j))) := by
    rw [hnj, List.range_succ_eq_map, List.map_cons]
    have : j + 0 = j := by omega
    rw [this]
    exact (List.nil_sublist _).cons₂ j
  exact List.Sublist.append hs1 hs2

/-- With a well-typed column of dtype `int` or `str`, all argsort keys are
of one comparable kind, so the modelled `sorted` raises nothing. -/
theorem argsortComparable_of_wellTyped (seq : List Val) (dtype : Dtype)
    (hd : dtype = .dInt ∨ dtype = .dStr)
    (hwt : ∀ v ∈ seq, v = .vNone ∨ isinstanceV v dtype = true) :
    argsortComparable (argsortKeys seq dtype) = true := by
  unfold argsortComparable
  rcases hd with hd | hd <;> subst hd
  · have : (argsortKeys seq .dInt).all isIntV = true := by
      apply List.all_eq_true.mpr
      intro k hk
      obtain ⟨v, hv, rfl⟩ := List.mem_map.mp hk
      rcases hwt v hv with h | h
      · simp [h, dtypeDefault, isIntV]
      · cases v <;> simp_all [isinstanceV, isIntV]
    simp [this]
  · have : (argsortKeys seq .dStr).all isStrV = true := by
      apply List.all_eq_true.mpr
      intro k hk
      obtain ⟨v, hv, rfl⟩ := List.mem_map.mp hk
      rcases hwt v hv with h | h
      · simp [h, dtypeDefault, isStrV]
      · cases v <;> simp_all [isinstanceV, isStrV]
    simp [this]

/-- Running `argsort` on a well-typed column of dtype `int` or `str` returns a
stable sorting permutation: a permutation of `range(len)`, pairwise
ordered by the (null-aware, possibly descending) key comparison, in which
equal-keyed indices keep their original relative order. -/
theorem argsort_ok_spec (seq : List Val) (dtype : Dtype) (desc : Bool)
    (hd : dtype = .dInt ∨ dtype = .dStr)
    (hwt : ∀ v ∈ seq, v = .vNone ∨ isinstanceV v dtype = true) :
    ∃ p, argsort seq dtype desc = .ok p ∧
      p.Perm (List.range seq.length) ∧
      p.Pairwise (argsortRel (argsortKeys seq dtype) desc) ∧
      (∀ i j : Nat, i < j → j < seq.length →
        (argsortKeys seq dtype).getD i .vNone = (argsortKeys seq dtype).getD j .vNone →
        [i, j].Sublist p) := by
  have hcomp := argsortComparable_of_wellTyped seq dtype hd hwt
  refine ⟨(List.range seq.length).insertionSort
      (argsortRel (argsortKeys seq dtype) desc), ?_, ?_, ?_, ?_⟩
  · unfold argsort
    simp only [hcomp, if_true]
  · exact List.perm_insertionSort _ _
  · exact List.sorted_insertionSort _ _
  · intro i j hij hjn heq
    apply List.pair_sublist_insertionSort
    · unfold argsortRel argsortLe
      cases desc <;> simp only [Bool.false_eq_true, if_false, if_true] <;> rw [heq] <;>
        exact valLeB_refl _
    · exact pair_sublist_range hij hjn

/-- A successful `__getitem__` exhibits the membership of the column. -/
theorem Table.getCol_mem (t : Table) (c : String) (s : Seq) (h : t.getCol c = .ok s) :
    (c, s) ∈ t.data := by
  unfold Table.getCol dictGet? at h
  cases hf : t.data.find? (fun p => p.1 == c) with
  | none =>
    rw [hf] at h
    cases h
  | some q =>
    rw [hf] at h
    have hq2 : q.2 = s := by
      simpa using h
    have hq1 : q.1 = c := by
      simpa using List.find?_some hf
    have hqm := List.mem_of_find?_eq_some hf
    have : q = (c, s) := by
      obtain ⟨q1, q2⟩ := q
      simp_all
    rw [← this]
    exact hqm

/-- Zipping three parallel maps over one list is a single map. -/
theorem zip_map_same {α β γ δ : Type} (f : α → β) (g : α → γ) (h : α → δ) :
    ∀ l : List α, (l.map f).zip ((l.map g).zip (l.map h)) =
      l.map (fun a => (f a, (g a, h a))) := by
  intro l
  induction l with
  | nil => rfl
  | cons a l ih => simp [ih]

/-- Reading `getD` through a `map`, for an in-range index. -/
theorem getD_map_lt {α β : Type} (f : α → β) (l : List α) (k : Nat)
    (hk : k < l.length) (d : β) (d0 : α) : (l.map f).getD k d = f (l.getD k d0) := by
  have h2 : k < (l.map f).length := by simpa using hk
  rw [List.getD_eq_getElem _ _ h2, List.getElem_map, List.getD_eq_getElem _ _ hk]

/-- Every column of a smooth table has length `shape[1]`. -/
theorem Table.col_length_of_smooth (t : Table) (q : String × Seq)
    (hq : q ∈ t.data) (hs : t.isSmooth = true) :
    q.2.data.length = (Table.shape t).2 := by
  have := List.all_eq_true.mp hs q hq
  simpa using this

/-- Running `Table.sorted` on a smooth, well-typed table whose sort column has
dtype `int` or `str`: it succeeds, keeps the shape, and row `k` of the
result is row `perm[k]` of the receiver, where `perm` is `argsort`'s
stable permutation (so equal-keyed rows keep their relative order). -/
theorem table_sorted_spec (t : Table) (c : String) (desc : Bool) (s : Seq)
    (hL : t.getCol c = .ok s)
    (hnd : t.cols.Nodup)
    (hs : t.isSmooth = true)
    (hd : s.dtype = .dInt ∨ s.dtype = .dStr)
    (hwt : ∀ q ∈ t.data, ∀ v ∈ q.2.data, v = .vNone ∨ isinstanceV v q.2.dtype = true) :
    ∃ p st, argsort s.data s.dtype desc = .ok p ∧
      t.sorted c desc = .ok st ∧
      Table.shape st = Table.shape t ∧
      (∀ k, k < (Table.shape t).2 → Table.rowAtD st k = Table.rowAtD t (p.getD k 0)) ∧
      (∀ i j : Nat, i < j → j < (Table.shape t).2 →
        (argsortKeys s.data s.dtype).getD i .vNone =
          (argsortKeys s.data s.dtype).getD j .vNone →
        [i, j].Sublist p) := by
  have hmemd := Table.getCol_mem t c s hL
  have hmemc : c ∈ t.cols := List.mem_map.mpr ⟨(c, s), hmemd, rfl⟩
  obtain ⟨p, hp_ok, hp_perm, hp_pw, hp_st⟩ :=
    argsort_ok_spec s.data s.dtype desc hd (hwt (c, s) hmemd)
  have hslen : s.data.length = (Table.shape t).2 :=
    Table.col_length_of_smooth t (c, s) hmemd hs
  have hplen : p.length = (Table.shape t).2 := by
    rw [hp_perm.length_eq, List.length_range, hslen]
  have hkmem : ∀ k ∈ p, k < (Table.shape t).2 := by
    intro k hk
    have := List.mem_range.mp (hp_perm.mem_iff.mp hk)
    omega
  have hGwt : ∀ q ∈ t.data, ∀ v ∈ p.map (fun k => q.2.data.getD k .vNone),
      v = .vNone ∨ isinstanceV v q.2.dtype = true := by
    intro q hq v hv
    obtain ⟨k, hk, rfl⟩ := List.mem_map.mp hv
    have hklt : k < q.2.data.length := by
      rw [Table.col_length_of_smooth t q hq hs]
      exact hkmem k hk
    have hvm : q.2.data.getD k .vNone ∈ q.2.data := by
      rw [List.getD_eq_getElem _ _ hklt]
      exact List.getElem_mem hklt
    exact hwt q hq _ hvm
  refine ⟨p, ⟨t.data.map (fun q =>
      (q.1, ⟨q.1, q.2.dtype, p.map (fun k => q.2.data.getD k .vNone)⟩))⟩,
    hp_ok, ?_, ?_, ?_, ?_⟩
  · -- the sorted-table computation
    have hgrid : t.data.mapM (fun q => p.mapM (fun k =>
        match q.2.data.get? k with
        | some v => Except.ok v
        | none => Except.error PyErr.indexError)) =
        .ok (t.data.map (fun q => p.map (fun k => q.2.data.getD k .vNone))) := by
      apply mapM_ok
      intro q hq
      apply mapM_ok
      intro k hk
      have hklt : k < q.2.data.length := by
        rw [Table.col_length_of_smooth t q hq hs]
        exact hkmem k hk
      rw [List.get?_eq_get hklt]
      rw [List.getD_eq_getElem _ _ hklt]
      rfl
    unfold Table.sorted
    rw [if_neg (not_not_intro hmemc)]
    rw [hL, exc_bind_ok, hp_ok, exc_bind_ok, hgrid, exc_bind_ok]
    unfold Table.from_iterable Table.create_cols
    have hclen : t.cols.length =
        (t.data.map (fun q => p.map (fun k => q.2.data.getD k .vNone))).length := by
      simp [Table.cols]
    have hdlen : t.dtypes.length =
        (t.data.map (fun q => p.map (fun k => q.2.data.getD k .vNone))).length := by
      simp [Table.dtypes]
    dsimp only
    rw [if_neg (by omega), if_neg (by simpa using hnd), exc_bind_ok,
      if_neg (by omega), exc_pure, exc_bind_ok]
    simp only [Table.cols, Table.dtypes]
    rw [zip_map_same]
    have hmap : (t.data.map (fun a =>
        (a.1, (p.map (fun k => a.2.data.getD k .vNone), a.2.dtype)))).mapM
        (fun q => do
          let sq ← Seq.init q.2.1 q.1 q.2.2
          pure (q.1, sq)) =
        .ok ((t.data.map (fun a =>
          (a.1, (p.map (fun k => a.2.data.getD k .vNone), a.2.dtype)))).map
          (fun q => (q.1, (⟨q.1, q.2.2, q.2.1⟩ : Seq)))) := by
      apply mapM_ok
      intro q hq
      obtain ⟨a, ha, rfl⟩ := List.mem_map.mp hq
      show (Seq.init _ _ _ >>= fun sq => pure (_, sq)) = _
      rw [show (Seq.init (p.map (fun k => a.2.data.getD k .vNone)) a.1 a.2.dtype) =
          .ok ⟨a.1, a.2.dtype, p.map (fun k => a.2.data.getD k .vNone)⟩ from
        Seq.init_of_wellTyped _ _ _ (hGwt a ha), exc_bind_ok]
      rfl
    rw [hmap, exc_bind_ok, List.map_map]
    rw [Table.init_id _ p.length ?_]
    · rfl
    · intro q hq
      obtain ⟨a, ha, rfl⟩ := List.mem_map.mp hq
      simp
  · -- shape preserved
    cases htd : t.data with
    | nil =>
      rw [htd] at hmemd
      cases hmemd
    | cons q0 rest =>
      have hq0 : q0.2.data.length = (Table.shape t).2 :=
        Table.col_length_of_smooth t q0 (by rw [htd]; simp) hs
      have h2 : Table.shape t = (rest.length + 1, q0.2.data.length) := by
        obtain ⟨td⟩ := t
        simp only at htd
        subst htd
        simp [Table.shape]
      rw [h2]
      simp only [List.map_cons, Table.shape, List.length_cons, List.length_map]
      rw [h2] at hplen
      simp only at hplen
      simp [hplen]
  · -- row k of the result is row perm[k] of the receiver
    intro k hk
    have hkp : k < p.length := by omega
    unfold Table.rowAtD
    simp only [List.map_map]
    apply List.map_congr_left
    intro q hq
    simp only [Function.comp]
    exact getD_map_lt _ p k hkp _ 0
  · -- stability transported to row indices
    intro i j hij hjn heq
    exact hp_st i j hij (by omega) heq

/-! ### Reference shape of `left_join`'s accumulator -/

/-- The value `left_join` fills in for one of `right`'s columns at one key
value of `self`: the column's entry at the first index where `right`'s key
column equals the value, or `None` when there is no match. -/
def joinVal (sR : Seq) (col : Seq) (v : Val) : Val :=
  match sR.data.findIdx? (fun w => w == v) with
  | some i => col.data.getD i .vNone
  | none => Val.vNone

/-- The state of `left_join`'s accumulator table after processing a prefix
`vs` of `self`'s key values: `right`'s schema, each column holding the
joined values. -/
def joinAcc (right : Table) (sR : Seq) (vs : List Val) : Table :=
  ⟨right.data.map (fun q => (q.1, ⟨q.1, q.2.dtype, vs.map (joinVal sR q.2)⟩))⟩

/-- The reference value of `self.left_join(right, ...)`: `self`'s columns
followed by the joined-in columns of `right` whose names `self` does not
declare. -/
def leftJoinRef (t right : Table) (sL sR : Seq) : Table :=
  ⟨t.data ++ (right.data.filter (fun q => decide (q.1 ∉ t.cols))).map
    (fun q => (q.1, ⟨q.1, q.2.dtype, sL.data.map (joinVal sR q.2)⟩))⟩

theorem findIdx?_lt_length {l : List Val} {p : Val → Bool} {i : Nat}
    (h : l.findIdx? p = some i) : i < l.length := by
  obtain ⟨hlt, -⟩ := List.findIdx?_eq_some_iff_getElem.mp h
  exact hlt

/-- Appending one joined row to the accumulator extends every column by
its joined value. -/
theorem joinAcc_append (right : Table) (sR : Seq) (vs : List Val) (v : Val)
    (hwt : ∀ q ∈ right.data, joinVal sR q.2 v = .vNone ∨
      isinstanceV (joinVal sR q.2 v) q.2.dtype = true) :
    (joinAcc right sR vs).append_row (right.data.map (fun q => joinVal sR q.2 v)) =
      .ok (joinAcc right sR (vs ++ [v])) := by
  have hsh : (Table.shape (joinAcc right sR vs)).1 = right.data.length := by
    rw [Table.shape_fst]
    simp [joinAcc]
  unfold Table.append_row
  rw [if_neg (by rw [hsh]; simp)]
  rw [if_neg ?htype]
  case htype =>
    intro hbad
    rw [Bool.not_eq_true, Bool.eq_false_iff] at hbad
    apply hbad
    apply List.all_eq_true.mpr
    intro pr hpr
    have hdt : (joinAcc right sR vs).dtypes = right.data.map (fun q => q.2.dtype) := by
      simp [joinAcc, Table.dtypes]
    rw [hdt, List.zip_map'] at hpr
    obtain ⟨q, hq, rfl⟩ := List.mem_map.mp hpr
    rcases hwt q hq with h | h
    · simp [h]
    · simp [h]
  congr 1
  unfold joinAcc
  congr 1
  dsimp only
  rw [List.zip_map', List.map_map]
  apply List.map_congr_left
  intro q hq
  simp [Seq.append]

/-- Folding the join loop over the key values produces exactly the
accumulated joined columns. -/
theorem join_fold (right : Table) (sR : Seq) (hsR : right.isSmooth = true)
    (hsRlen : sR.data.length = (Table.shape right).2)
    (hwtR : ∀ q ∈ right.data, ∀ w ∈ q.2.data, w = .vNone ∨ isinstanceV w q.2.dtype = true) :
    ∀ (vs acc : List Val),
      vs.foldlM (fun acc2 v =>
        match sR.data.findIdx? (fun w => w == v) with
        | some idx => do
          let row ← right.i idx
          acc2.append_row row
        | none => acc2.append_row (List.replicate (Table.shape right).1 .vNone))
        (joinAcc right sR acc) =
      .ok (joinAcc right sR (acc ++ vs)) := by
  intro vs
  induction vs with
  | nil =>
    intro acc
    rw [List.foldlM_nil, List.append_nil]
    rfl
  | cons v vs ih =>
    intro acc
    rw [List.foldlM_cons]
    have hbody : (match sR.data.findIdx? (fun w => w == v) with
        | some idx => do
          let row ← right.i idx
          (joinAcc right sR acc).append_row row
        | none => (joinAcc right sR acc).append_row
            (List.replicate (Table.shape right).1 .vNone)) =
        .ok (joinAcc right sR (acc ++ [v])) := by
      cases hidx : sR.data.findIdx? (fun w => w == v) with
      | none =>
        dsimp only
        have hrow : List.replicate (Table.shape right).1 Val.vNone =
            right.data.map (fun q => joinVal sR q.2 v) := by
          have : ∀ q ∈ right.data, joinVal sR q.2 v = Val.vNone := by
            intro q hq
            unfold joinVal
            rw [hidx]
          rw [Table.shape_fst]
          rw [List.map_congr_left this]
          simp
        rw [hrow]
        exact joinAcc_append right sR acc v (fun q hq => Or.inl (by unfold joinVal; rw [hidx]))
      | some idx =>
        dsimp only
        have hidxlt : idx < sR.data.length := findIdx?_lt_length hidx
        have hrow := Table.i_ok right idx hsR (by omega)
        rw [hrow, exc_bind_ok]
        have hrow2 : Table.rowAtD right idx = right.data.map (fun q => joinVal sR q.2 v) := by
          unfold Table.rowAtD
          apply List.map_congr_left
          intro q hq
          unfold joinVal
          rw [hidx]
        rw [hrow2]
        apply joinAcc_append
        intro q hq
        have hqlen : q.2.data.length = (Table.shape right).2 :=
          Table.col_length_of_smooth right q hq hsR
        have hlt : idx < q.2.data.length := by omega
        have hmem : joinVal sR q.2 v ∈ q.2.data := by
          unfold joinVal
          rw [hidx]
          dsimp only
          rw [List.getD_eq_getElem _ _ hlt]
          exact List.getElem_mem hlt
        exact hwtR q hq _ hmem
    rw [hbody, exc_bind_ok, ih (acc ++ [v]), List.append_assoc]
    rfl

/-- The post-join drop loop is a no-op when `self` and `right` share no
column name. -/
theorem drop_fold_none (rcols : List String) :
    ∀ (cs : List String) (acc : Table), (∀ c ∈ cs, ¬ c ∈ rcols) →
      cs.foldlM (fun acc2 c => if c ∈ rcols then acc2.drop_col c else pure acc2) acc =
        .ok acc := by
  intro cs
  induction cs with
  | nil => intro acc _; rfl
  | cons c cs ih =>
    intro acc h
    rw [List.foldlM_cons, if_neg (h c (by simp)), exc_pure, exc_bind_ok]
    exact ih acc (fun d hd => h d (by simp [hd]))

/-- The post-join drop loop removes exactly the single shared column. -/
theorem drop_fold_one (rcols : List String) :
    ∀ (cs : List String) (x : String) (acc : Table),
      cs.filter (fun c => decide (c ∈ rcols)) = [x] →
      acc.data.any (fun q => q.1 == x) = true →
      cs.foldlM (fun acc2 c => if c ∈ rcols then acc2.drop_col c else pure acc2) acc =
        .ok ⟨acc.data.filter (fun q => q.1 != x)⟩ := by
  intro cs
  induction cs with
  | nil =>
    intro x acc hf _
    simp at hf
  | cons c cs ih =>
    intro x acc hf hmem
    by_cases hc : c ∈ rcols
    · rw [List.filter_cons_of_pos (by simpa using hc)] at hf
      have hcx : c = x := by
        have := List.head_eq_of_cons_eq hf
        simpa using this
      have hrest : cs.filter (fun c => decide (c ∈ rcols)) = [] :=
        List.tail_eq_of_cons_eq hf
      subst hcx
      rw [List.foldlM_cons, if_pos hc]
      have hdrop : acc.drop_col c = .ok ⟨acc.data.filter (fun q => q.1 != c)⟩ := by
        unfold Table.drop_col
        rw [if_pos hmem]
      rw [hdrop, exc_bind_ok]
      exact drop_fold_none rcols cs _ (by
        intro d hd
        intro hdin
        have : d ∈ cs.filter (fun c => decide (c ∈ rcols)) :=
          List.mem_filter.mpr ⟨hd, by simpa using hdin⟩
        rw [hrest] at this
        cases this)
    · rw [List.filter_cons_of_neg (by simpa using hc)] at hf
      rw [List.foldlM_cons, if_neg hc, exc_pure, exc_bind_ok]
      exact ih x acc hf hmem

/-- Merging `{**a, **b}` with fresh, distinct keys in `b` is plain concatenation. -/
theorem dictMerge_append :
    ∀ (b a : List (String × Seq)),
      (∀ q ∈ b, ¬ q.1 ∈ a.map (fun p => p.1)) → (b.map (fun p => p.1)).Nodup →
      dictMerge a b = a ++ b := by
  intro b
  induction b with
  | nil =>
    intro a _ _
    simp [dictMerge]
  | cons q b ih =>
    intro a hdisj hnd
    unfold dictMerge
    rw [List.foldl_cons]
    have hset : dictSet a q.1 q.2 = a ++ [q] := by
      unfold dictSet
      rw [if_neg ?_]
      · intro hany
        obtain ⟨p, hp, hpq⟩ := List.any_eq_true.mp hany
        exact hdisj q (by simp) (List.mem_map.mpr ⟨p, hp, by simpa using hpq⟩)
    rw [hset]
    have ih2 := ih (a ++ [q]) ?_ ?_
    · unfold dictMerge at ih2
      rw [ih2, List.append_assoc]
      rfl
    · intro p hp hin
      rw [List.map_append, List.mem_append] at hin
      rcases hin with h | h
      · exact hdisj p (by simp [hp]) h
      · simp at h
        rw [List.map_cons, List.nodup_cons] at hnd
        exact hnd.1 (h ▸ List.mem_map.mpr ⟨p, hp, rfl⟩)
    · rw [List.map_cons, List.nodup_cons] at hnd
      exact hnd.2

/-! ## Concrete fixtures used by the theorems -/

/-- A `Table` built from two `object`-dtype columns of lengths 2 and 1. -/
def exRagged : Table := Table.init
  [("a", ⟨"a", .dObj, [.vInt 1, .vInt 2]⟩), ("b", ⟨"b", .dObj, [.vInt 3]⟩)]

/-- Table `A = [(1, "x")]` over columns `a : int`, `b : str`. -/
def exUnionA : Table := Table.init
  [("a", ⟨"a", .dInt, [.vInt 1]⟩), ("b", ⟨"b", .dStr, [.vStr "x"]⟩)]

/-- Table `B = [(1, "x"), (2, "y")]` over the same schema as `exUnionA`. -/
def exUnionB : Table := Table.init
  [("a", ⟨"a", .dInt, [.vInt 1, .vInt 2]⟩), ("b", ⟨"b", .dStr, [.vStr "x", .vStr "y"]⟩)]

/-- The three-row row-wise concatenation of `exUnionA` and `exUnionB`. -/
def exUnionAllRes : Table :=
  ⟨[("a", ⟨"a", .dInt, [.vInt 1, .vInt 1, .vInt 2]⟩),
    ("b", ⟨"b", .dStr, [.vStr "x", .vStr "x", .vStr "y"]⟩)]⟩

/-- A table whose `g` column holds a single run of equal values. -/
def exGroupOneRun : Table := Table.init
  [("g", ⟨"g", .dInt, [.vInt 1, .vInt 1, .vInt 1]⟩),
   ("x", ⟨"x", .dInt, [.vInt 10, .vInt 20, .vInt 30]⟩)]

/-- A table whose `g` column holds three distinct values. -/
def exGroupThreeRuns : Table := Table.init
  [("g", ⟨"g", .dInt, [.vInt 1, .vInt 2, .vInt 3]⟩),
   ("x", ⟨"x", .dInt, [.vInt 10, .vInt 20, .vInt 30]⟩)]

/-- The `k`-th single-row group of `exGroupThreeRuns`. -/
def exGroup (g x : Int) : Table :=
  ⟨[("g", ⟨"g", .dInt, [.vInt g]⟩), ("x", ⟨"x", .dInt, [.vInt x]⟩)]⟩

/-- A 2-column, 3-row int table. -/
def exT23 : Table := Table.init
  [("a", ⟨"a", .dInt, [.vInt 1, .vInt 2, .vInt 3]⟩),
   ("b", ⟨"b", .dInt, [.vInt 4, .vInt 5, .vInt 6]⟩)]

/-- A 3-column, 1-row int table. -/
def exT31 : Table := Table.init
  [("a", ⟨"a", .dInt, [.vInt 1]⟩), ("b", ⟨"b", .dInt, [.vInt 2]⟩),
   ("c", ⟨"c", .dInt, [.vInt 3]⟩)]

/-- A 2-column, 1-row int table. -/
def exT21 : Table := Table.init
  [("a", ⟨"a", .dInt, [.vInt 1]⟩), ("b", ⟨"b", .dInt, [.vInt 2]⟩)]

/-- Table `exT21` without column `a`. -/
def exT21DroppedCol : Table := ⟨[("b", ⟨"b", .dInt, [.vInt 2]⟩)]⟩

/-- Table `exT21` without its only row. -/
def exT21DroppedRow : Table := ⟨[("a", ⟨"a", .dInt, []⟩), ("b", ⟨"b", .dInt, []⟩)]⟩

/-! ## Claim theorems -/

/-- C1: the spec's smoothness invariant says every public operation leaves
all columns with one common length equal to `shape[1]`.  The code violates
it: building a `Table` from `object`-dtype columns of lengths 2 and 1
completes normally — `Seq.grow`'s `self + [None] * 1` takes the
`isinstance(other, self.dtype)` branch of `Seq.__add__` (a list *is* an
instance of `object`), evaluates `3 + [None]`, raises `TypeError`, and
`Table.__init__` swallows it — leaving a ragged table whose `shape`
reports 2 rows while column `b` has 1. -/
theorem C1_smoothness_violated :
    Seq.init [.vInt 1, .vInt 2] "a" .dObj = .ok ⟨"a", .dObj, [.vInt 1, .vInt 2]⟩ ∧
    Seq.grow ⟨"b", .dObj, [.vInt 3]⟩ 1 = .error .typeError ∧
    exRagged.data = [("a", ⟨"a", .dObj, [.vInt 1, .vInt 2]⟩),
                     ("b", ⟨"b", .dObj, [.vInt 3]⟩)] ∧
    exRagged.shape = (2, 2) ∧
    exRagged.isSmooth = false := by
  decide

/-- C2 counterexample: for the zero-column table, `append_row(())`
succeeds (the row length 0 matches the column count 0) yet the row count
stays 0 instead of increasing by exactly 1. -/
theorem C2_zero_column_append :
    (Table.empty [] []).append_row [] = .ok (Table.empty [] []) ∧
    (Table.empty [] []).shape.2 = 0 := by
  decide

/-- C2 (amended: the row count increases by exactly 1 *provided the table
has at least one column*; the zero-column table accepts the empty row
without gaining a row).  `append_row` validates the whole row — length
against the column count, then every value against its column's dtype —
before the separate mutation loop runs, so on success every column gains
exactly the row value at its position (and the row count grows by 1),
while on failure (`ValueError` for a length mismatch, `TypeError` for an
ill-typed value) no column has been touched. -/
theorem C2_append_row_atomic (t : Table) (row : List Val) (hc : 0 < t.len) :
    (∀ t', t.append_row row = .ok t' →
      t'.data = (t.data.zip row).map (fun p => (p.1.1, p.1.2.append p.2)) ∧
      (Table.shape t') = ((Table.shape t).1, (Table.shape t).2 + 1)) ∧
    (t.append_row row = .error .valueError ↔ row.length ≠ (Table.shape t).1) ∧
    (t.append_row row = .error .typeError ↔
      row.length = (Table.shape t).1 ∧
      ∃ p ∈ row.zip t.dtypes, isinstanceV p.1 p.2 = false ∧ p.1 ≠ .vNone) := by
  have hfst := Table.shape_fst t
  unfold Table.append_row
  by_cases hlen : row.length = (Table.shape t).1
  · rw [if_neg (by omega)]
    by_cases hall : (row.zip t.dtypes).all (fun p => isinstanceV p.1 p.2 || p.1 == .vNone) = true
    · rw [if_neg (by simp [hall])]
      refine ⟨?_, (by simp [hlen]), ?_⟩
      · intro t' ht'
        cases ht'
        refine ⟨rfl, ?_⟩
        cases ht : t.data with
        | nil =>
          rw [Table.len, ht] at hc
          simp at hc
        | cons p rest =>
          cases hrow : row with
          | nil =>
            rw [hrow] at hlen
            rw [hfst, ht] at hlen
            simp at hlen
          | cons v vs =>
            have hvs : vs.length = rest.length := by
              have h2 := hlen.trans hfst
              rw [hrow, ht] at h2
              simpa using h2
            have hsh : Table.shape t = (rest.length + 1, p.2.data.length) := by
              obtain ⟨td⟩ := t
              simp only at ht
              subst ht
              simp [Table.shape]
            rw [hsh]
            simp [Table.shape, Seq.append, hvs]
      · constructor
        · intro h
          cases h
        · rintro ⟨-, p, hp, hinst, hnone⟩
          have hp2 := List.all_eq_true.mp hall p hp
          rw [hinst] at hp2
          have : p.1 = Val.vNone := by simpa using hp2
          exact absurd this hnone
    · rw [if_pos (by simpa using hall)]
      refine ⟨(by intro t' ht'; cases ht'), (by simp [hlen]), ?_⟩
      simp only [hlen, true_and]
      constructor
      · intro _
        have h2 : ∃ p ∈ row.zip t.dtypes,
            ¬ (isinstanceV p.1 p.2 || p.1 == Val.vNone) = true := by
          by_contra hno
          push_neg at hno
          exact hall (List.all_eq_true.mpr hno)
        obtain ⟨p, hp, hbad⟩ := h2
        rw [Bool.or_eq_true] at hbad
        push_neg at hbad
        refine ⟨p, hp, ?_, ?_⟩
        · simpa using hbad.1
        · simpa using hbad.2
      · intro _
        trivial
  · rw [if_pos hlen]
    refine ⟨(by intro t' ht'; cases ht'), (by simp [hlen]), ?_⟩
    constructor
    · intro h
      cases h
    · rintro ⟨h, -⟩
      exact absurd h hlen

/-- Witness for C2: a one-column int table accepts the well-typed row
`[7]`, rejects the too-long row with `ValueError`, and rejects the
ill-typed row `["x"]` with `TypeError`. -/
theorem C2_append_row_atomic_witness :
    ((∀ t', (Table.init [("a", ⟨"a", .dInt, [.vInt 1]⟩)]).append_row [.vInt 7] = .ok t' →
      t'.data = (((Table.init [("a", ⟨"a", .dInt, [.vInt 1]⟩)]).data.zip [Val.vInt 7]).map
        (fun p => (p.1.1, p.1.2.append p.2))) ∧
      (Table.shape t') = ((Table.shape (Table.init [("a", ⟨"a", .dInt, [.vInt 1]⟩)])).1,
        (Table.shape (Table.init [("a", ⟨"a", .dInt, [.vInt 1]⟩)])).2 + 1)) ∧
    ((Table.init [("a", ⟨"a", .dInt, [.vInt 1]⟩)]).append_row [.vInt 7] = .error .valueError ↔
      ([Val.vInt 7]).length ≠ (Table.shape (Table.init [("a", ⟨"a", .dInt, [.vInt 1]⟩)])).1) ∧
    ((Table.init [("a", ⟨"a", .dInt, [.vInt 1]⟩)]).append_row [.vInt 7] = .error .typeError ↔
      ([Val.vInt 7]).length = (Table.shape (Table.init [("a", ⟨"a", .dInt, [.vInt 1]⟩)])).1 ∧
      ∃ p ∈ ([Val.vInt 7]).zip (Table.init [("a", ⟨"a", .dInt, [.vInt 1]⟩)]).dtypes,
        isinstanceV p.1 p.2 = false ∧ p.1 ≠ .vNone)) :=
  C2_append_row_atomic (Table.init [("a", ⟨"a", .dInt, [.vInt 1]⟩)]) [.vInt 7] (by decide)

/-- C3: with `A = [(1, "x")]` and `B = [(1, "x"), (2, "y")]` over the same
schema, `A.union_all(B)` does return the 3-row concatenation, but
`A.union(B)` raises `IndexError` instead of returning 2 deduplicated rows:
its very first `contains_row` check iterates the freshly created empty
accumulator, and `Table.__next__` bounds iteration by the *column* count
(2), so `i(0)` indexes empty columns. -/
theorem C3_union_all_ok_union_raises :
    exUnionA.union_all exUnionB = .ok exUnionAllRes ∧
    exUnionAllRes.shape.2 = 3 ∧
    exUnionA.union exUnionB = .error .indexError := by
  decide

/-- C4: under `left_join`'s preconditions — both key columns exist with
equal dtypes, and the shared column names are exactly the join key (when
`left_on == right_on`) or nothing — on smooth tables with well-typed
`right` data, the join succeeds and equals `self`'s columns followed by
the joined-in columns of `right`: each holds, at row `k`, the value of the
first row of `right` whose key equals `self`'s key value, or `None` when
no row matches.  In particular the result has exactly `self`'s row count. -/
theorem C4_left_join_cardinality (t right : Table) (left_on right_on : String)
    (sL sR : Seq)
    (hL : t.getCol left_on = .ok sL)
    (hR : right.getCol right_on = .ok sR)
    (hdt : sL.dtype = sR.dtype)
    (hndT : t.cols.Nodup) (hndR : right.cols.Nodup)
    (hshared : ((t.cols.filter (fun c => c ∈ right.cols)).dedup).length =
      (if left_on = right_on then 1 else 0))
    (hsT : t.isSmooth = true) (hsR : right.isSmooth = true)
    (hwtR : ∀ q ∈ right.data, ∀ v ∈ q.2.data, v = .vNone ∨ isinstanceV v q.2.dtype = true) :
    t.left_join right left_on right_on = .ok (leftJoinRef t right sL sR) ∧
    (Table.shape (leftJoinRef t right sL sR)).2 = (Table.shape t).2 ∧
    (∀ q ∈ right.data, ∀ k, k < (Table.shape t).2 →
      (sR.data.findIdx? (fun w => w == sL.data.getD k .vNone) = none →
        (sL.data.map (joinVal sR q.2)).getD k .vNone = Val.vNone) ∧
      (∀ i, sR.data.findIdx? (fun w => w == sL.data.getD k .vNone) = some i →
        (sL.data.map (joinVal sR q.2)).getD k .vNone = q.2.data.getD i .vNone)) := by
  have hmemL := Table.getCol_mem t left_on sL hL
  have hmemR := Table.getCol_mem right right_on sR hR
  have hmemcL : left_on ∈ t.cols := List.mem_map.mpr ⟨_, hmemL, rfl⟩
  have hmemcR : right_on ∈ right.cols := List.mem_map.mpr ⟨_, hmemR, rfl⟩
  have hsLlen : sL.data.length = (Table.shape t).2 :=
    Table.col_length_of_smooth t _ hmemL hsT
  have hsRlen : sR.data.length = (Table.shape right).2 :=
    Table.col_length_of_smooth right _ hmemR hsR
  have hshared2 : (t.cols.filter (fun c => decide (c ∈ right.cols)) = [left_on] ∧
      ∀ q ∈ right.data, (decide ¬ q.1 ∈ t.cols) = (q.1 != left_on)) ∨
      (∀ c ∈ t.cols, ¬ c ∈ right.cols) := by
    by_cases hlr : left_on = right_on
    · left
      rw [if_pos hlr] at hshared
      rw [List.Nodup.dedup (hndT.filter _)] at hshared
      obtain ⟨x, hx⟩ := List.length_eq_one.mp hshared
      have hlx : left_on ∈ t.cols.filter (fun c => decide (c ∈ right.cols)) :=
        List.mem_filter.mpr ⟨hmemcL,
          decide_eq_true (show left_on ∈ right.cols by rw [hlr]; exact hmemcR)⟩
      have hxl : x = left_on := by
        rw [hx] at hlx
        exact (List.mem_singleton.mp hlx).symm
      refine ⟨hxl ▸ hx, ?_⟩
      intro q hq
      have hqr : q.1 ∈ right.cols := List.mem_map.mpr ⟨q, hq, rfl⟩
      by_cases hqt : q.1 ∈ t.cols
      · have hq1 : q.1 ∈ t.cols.filter (fun c => decide (c ∈ right.cols)) :=
          List.mem_filter.mpr ⟨hqt, decide_eq_true hqr⟩
        rw [hx] at hq1
        have hqleft : q.1 = left_on := (List.mem_singleton.mp hq1).trans hxl
        simp [hqleft, hmemcL]
      · have hqx : q.1 ≠ left_on := fun h => hqt (h ▸ hmemcL)
        simp [hqt, hqx]
    · right
      rw [if_neg hlr] at hshared
      have hnil := (List.dedup_eq_nil _).mp (List.length_eq_zero.mp hshared)
      intro c hc hcr
      have hcf : c ∈ t.cols.filter (fun c => decide (c ∈ right.cols)) :=
        List.mem_filter.mpr ⟨hc, decide_eq_true hcr⟩
      rw [hnil] at hcf
      cases hcf
  have hempty : Table.empty right.cols right.dtypes = joinAcc right sR [] := by
    rw [Table.empty_eq]
    unfold joinAcc Table.cols Table.dtypes
    rw [List.zip_map']
    congr 1
    rw [List.map_map]
    apply List.map_congr_left
    intro q hq
    simp
  have hfold := join_fold right sR hsR hsRlen hwtR sL.data []
  rw [List.nil_append] at hfold
  have hdrop : t.cols.foldlM (fun acc c =>
      if c ∈ right.cols then acc.drop_col c else pure acc) (joinAcc right sR sL.data) =
      .ok ⟨(right.data.filter (fun q => decide ¬ q.1 ∈ t.cols)).map
        (fun q => (q.1, ⟨q.1, q.2.dtype, sL.data.map (joinVal sR q.2)⟩))⟩ := by
    rcases hshared2 with ⟨hflt, hpt⟩ | hcase
    · have hlonR : left_on ∈ right.cols := by
        have : left_on ∈ t.cols.filter (fun c => decide (c ∈ right.cols)) := by
          rw [hflt]
          exact List.mem_singleton.mpr rfl
        have := (List.mem_filter.mp this).2
        simpa using this
      obtain ⟨q0, hq0, hq0l⟩ := List.mem_map.mp hlonR
      have hmem : (joinAcc right sR sL.data).data.any (fun q => q.1 == left_on) = true := by
        apply List.any_eq_true.mpr
        refine ⟨(q0.1, ⟨q0.1, q0.2.dtype, sL.data.map (joinVal sR q0.2)⟩), ?_, ?_⟩
        · exact List.mem_map.mpr ⟨q0, hq0, rfl⟩
        · simpa using hq0l
      rw [drop_fold_one right.cols t.cols left_on _ hflt hmem]
      congr 2
      rw [show (joinAcc right sR sL.data).data =
          right.data.map (fun q =>
            (q.1, (⟨q.1, q.2.dtype, sL.data.map (joinVal sR q.2)⟩ : Seq))) from rfl]
      rw [List.filter_map]
      congr 1
      apply List.filter_congr
      intro q hq
      exact (hpt q hq).symm
    · rw [drop_fold_none right.cols t.cols _ hcase]
      congr 1
      have hall : right.data.filter (fun q => decide ¬ q.1 ∈ t.cols) = right.data := by
        apply List.filter_eq_self.mpr
        intro q hq
        apply decide_eq_true
        intro hqt
        exact hcase q.1 hqt (List.mem_map.mpr ⟨q, hq, rfl⟩)
      rw [hall]
      rfl
  have himpl : t.left_join right left_on right_on = .ok (leftJoinRef t right sL sR) := by
    unfold Table.left_join
    rw [hL, exc_bind_ok, hR, exc_bind_ok, if_neg (not_not_intro hdt)]
    dsimp only
    rw [if_neg (not_not_intro hshared), hempty, hfold, exc_bind_ok, hdrop, exc_bind_ok]
    unfold Table.concat
    have hmerge : dictMerge t.data
        ((right.data.filter (fun q => decide ¬ q.1 ∈ t.cols)).map
          (fun q => (q.1, ⟨q.1, q.2.dtype, sL.data.map (joinVal sR q.2)⟩))) =
        t.data ++ (right.data.filter (fun q => decide ¬ q.1 ∈ t.cols)).map
          (fun q => (q.1, ⟨q.1, q.2.dtype, sL.data.map (joinVal sR q.2)⟩)) := by
      apply dictMerge_append
      · intro q hq
        obtain ⟨q0, hq0, rfl⟩ := List.mem_map.mp hq
        have h2 : q0.1 ∉ t.cols := by
          simpa using (List.mem_filter.mp hq0).2
        exact h2
      · rw [List.map_map]
        have hsub : List.Sublist
            ((right.data.filter (fun q => decide ¬ q.1 ∈ t.cols)).map (fun q => q.1))
            (right.data.map (fun q => q.1)) :=
          (List.filter_sublist _).map _
        exact List.Nodup.sublist hsub hndR
    rw [hmerge, Table.init_id _ (Table.shape t).2 ?_]
    · rfl
    · intro q hq
      rw [List.mem_append] at hq
      rcases hq with hq | hq
      · exact Table.col_length_of_smooth t q hq hsT
      · obtain ⟨q0, hq0, rfl⟩ := List.mem_map.mp hq
        simpa using hsLlen
  have hshape : (Table.shape (leftJoinRef t right sL sR)).2 = (Table.shape t).2 := by
    cases htd : t.data with
    | nil =>
      rw [htd] at hmemL
      cases hmemL
    | cons q0 rest =>
      have hq0 : q0.2.data.length = (Table.shape t).2 :=
        Table.col_length_of_smooth t q0 (by rw [htd]; simp) hsT
      unfold leftJoinRef
      rw [htd]
      simp [Table.shape, hq0]
  refine ⟨himpl, hshape, ?_⟩
  intro q hq k hk
  have hkL : k < sL.data.length := by omega
  constructor
  · intro hfind
    rw [getD_map_lt _ _ k hkL _ Val.vNone]
    unfold joinVal
    rw [hfind]
  · intro i hfind
    rw [getD_map_lt _ _ k hkL _ Val.vNone]
    unfold joinVal
    rw [hfind]

/-- Left table for the join witness: id = [1, 2, 3], a = [p, q, r]. -/
def exJoinL : Table := Table.init
  [("id", ⟨"id", .dInt, [.vInt 1, .vInt 2, .vInt 3]⟩),
   ("a", ⟨"a", .dStr, [.vStr "p", .vStr "q", .vStr "r"]⟩)]

/-- Right table for the join witness: id = [1, 3], b = [u, v]. -/
def exJoinR : Table := Table.init
  [("id", ⟨"id", .dInt, [.vInt 1, .vInt 3]⟩),
   ("b", ⟨"b", .dStr, [.vStr "u", .vStr "v"]⟩)]

/-- The key column of `exJoinL`. -/
def exKeyL : Seq := ⟨"id", .dInt, [.vInt 1, .vInt 2, .vInt 3]⟩

/-- The key column of `exJoinR`. -/
def exKeyR : Seq := ⟨"id", .dInt, [.vInt 1, .vInt 3]⟩

/-- Witness for C4: joining the spec's own example (`self`-keys `[1,2,3]`
against `right`-keys `[1,3]`) yields 3 rows with the unmatched key 2
filled with `None`. -/
theorem C4_left_join_cardinality_witness :
    (exJoinL.left_join exJoinR "id" "id" = .ok (leftJoinRef exJoinL exJoinR exKeyL exKeyR) ∧
     (Table.shape (leftJoinRef exJoinL exJoinR exKeyL exKeyR)).2 = (Table.shape exJoinL).2 ∧
     (∀ q ∈ exJoinR.data, ∀ k, k < (Table.shape exJoinL).2 →
       (exKeyR.data.findIdx? (fun w => w == exKeyL.data.getD k .vNone) = none →
         (exKeyL.data.map (joinVal exKeyR q.2)).getD k .vNone = Val.vNone) ∧
       (∀ i, exKeyR.data.findIdx? (fun w => w == exKeyL.data.getD k .vNone) = some i →
         (exKeyL.data.map (joinVal exKeyR q.2)).getD k .vNone = q.2.data.getD i .vNone))) ∧
    exJoinL.left_join exJoinR "id" "id" =
      .ok ⟨[("id", ⟨"id", .dInt, [.vInt 1, .vInt 2, .vInt 3]⟩),
            ("a", ⟨"a", .dStr, [.vStr "p", .vStr "q", .vStr "r"]⟩),
            ("b", ⟨"b", .dStr, [.vStr "u", .vNone, .vStr "v"]⟩)]⟩ :=
  ⟨C4_left_join_cardinality exJoinL exJoinR "id" "id" exKeyL exKeyR
      (by decide) (by decide) (by decide) (by decide) (by decide) (by decide)
      (by decide) (by decide) (by decide),
    by decide⟩

/-- C5: `group_by` is not the ordered partition the spec describes.  On a
table whose group column holds the single run `1, 1, 1` it returns *no*
groups (the final accumulator is appended to `res` only when a value
change occurs); and with the three runs `1 | 2 | 3` it returns four
entries in which the middle group appears twice (at each value change the
source appends both the finished group and the fresh accumulator, and the
fresh accumulator was already appended when it was created). -/
theorem C5_group_by_code_bug :
    exGroupOneRun.group_by "g" = .ok [] ∧
    exGroupOneRun.shape.2 = 3 ∧
    exGroupThreeRuns.group_by "g" =
      .ok [exGroup 1 10, exGroup 2 20, exGroup 2 20, exGroup 3 30] := by
  decide

/-- C6 counterexample: the claim quantifies over every dtype, but for
dtype `object` the ranking utility *does* raise a comparison `TypeError`
for `None`: the key substituted for `None` is `object()`, which Python
cannot compare with the other keys. -/
theorem C6_object_dtype_counterexample :
    argsort [.vNone, .vInt 0] .dObj false = .error .typeError := by
  decide

/-- C6 (amended: restricted to dtypes whose default `dtype()` compares
with well-typed column values — `int` with default `0` and `str` with
default `""`; for dtype `object` the injected `object()` default raises a
comparison `TypeError` whenever a `None` occurs among other values, see
the counterexample): on a well-typed sequence, `argsort` returns a
permutation of `0..len-1` that sorts the `None`-defaulted keys ascending
(descending when `desc`), never raises, and is stable — equal-keyed
indices keep their original relative order; consequently `Table.sorted(c)`
succeeds on a smooth well-typed table, row `k` of the result is row
`perm[k]` of the receiver, and rows with equal `c`-keys keep their
original relative order. -/
theorem C6_argsort_stable_ranking :
    (∀ (seq : List Val) (dtype : Dtype) (desc : Bool),
      dtype = .dInt ∨ dtype = .dStr →
      (∀ v ∈ seq, v = .vNone ∨ isinstanceV v dtype = true) →
      ∃ p, argsort seq dtype desc = .ok p ∧
        p.Perm (List.range seq.length) ∧
        p.Pairwise (argsortRel (argsortKeys seq dtype) desc) ∧
        (∀ i j : Nat, i < j → j < seq.length →
          (argsortKeys seq dtype).getD i .vNone =
            (argsortKeys seq dtype).getD j .vNone →
          [i, j].Sublist p)) ∧
    (∀ (t : Table) (c : String) (desc : Bool) (s : Seq),
      t.getCol c = .ok s →
      t.cols.Nodup →
      t.isSmooth = true →
      s.dtype = .dInt ∨ s.dtype = .dStr →
      (∀ q ∈ t.data, ∀ v ∈ q.2.data, v = .vNone ∨ isinstanceV v q.2.dtype = true) →
      ∃ p st, argsort s.data s.dtype desc = .ok p ∧
        t.sorted c desc = .ok st ∧
        Table.shape st = Table.shape t ∧
        (∀ k, k < (Table.shape t).2 → Table.rowAtD st k = Table.rowAtD t (p.getD k 0)) ∧
        (∀ i j : Nat, i < j → j < (Table.shape t).2 →
          (argsortKeys s.data s.dtype).getD i .vNone =
            (argsortKeys s.data s.dtype).getD j .vNone →
          [i, j].Sublist p)) :=
  ⟨argsort_ok_spec, table_sorted_spec⟩

/-- Witness for C6: a concrete int sequence with a `None` and duplicated
keys, and the concrete table `exT23` sorted by column `a`. -/
theorem C6_argsort_stable_ranking_witness :
    (∃ p, argsort [Val.vInt 3, Val.vNone, Val.vInt 3, Val.vInt (-1)] .dInt false = .ok p ∧
      p.Perm (List.range ([Val.vInt 3, Val.vNone, Val.vInt 3, Val.vInt (-1)]).length) ∧
      p.Pairwise (argsortRel
        (argsortKeys [Val.vInt 3, Val.vNone, Val.vInt 3, Val.vInt (-1)] .dInt) false) ∧
      (∀ i j : Nat, i < j → j < ([Val.vInt 3, Val.vNone, Val.vInt 3, Val.vInt (-1)]).length →
        (argsortKeys [Val.vInt 3, Val.vNone, Val.vInt 3, Val.vInt (-1)] .dInt).getD i .vNone =
          (argsortKeys [Val.vInt 3, Val.vNone, Val.vInt 3, Val.vInt (-1)] .dInt).getD j .vNone →
        [i, j].Sublist p)) ∧
    (∃ p st, argsort (⟨"a", .dInt, [.vInt 1, .vInt 2, .vInt 3]⟩ : Seq).data
        (⟨"a", .dInt, [.vInt 1, .vInt 2, .vInt 3]⟩ : Seq).dtype false = .ok p ∧
      exT23.sorted "a" false = .ok st ∧
      Table.shape st = Table.shape exT23 ∧
      (∀ k, k < (Table.shape exT23).2 →
        Table.rowAtD st k = Table.rowAtD exT23 (p.getD k 0)) ∧
      (∀ i j : Nat, i < j → j < (Table.shape exT23).2 →
        (argsortKeys (⟨"a", .dInt, [.vInt 1, .vInt 2, .vInt 3]⟩ : Seq).data .dInt).getD i
            .vNone =
          (argsortKeys (⟨"a", .dInt, [.vInt 1, .vInt 2, .vInt 3]⟩ : Seq).data .dInt).getD j
            .vNone →
        [i, j].Sublist p)) :=
  ⟨C6_argsort_stable_ranking.1 [Val.vInt 3, Val.vNone, Val.vInt 3, Val.vInt (-1)] .dInt false
      (Or.inl rfl) (by decide),
    C6_argsort_stable_ranking.2 exT23 "a" false ⟨"a", .dInt, [.vInt 1, .vInt 2, .vInt 3]⟩
      (by decide) (by decide) (by decide) (Or.inl rfl) (by decide)⟩

/-- C7: `sorted_by_pattern` never performs the documented reordering.  Its
length check compares the pattern against `len(self)` — the *column*
count — so the docstring's own example (a 3-row, 2-column table with
pattern `[1, 2, 0]`) raises `ValueError`; and a pattern that passes that
check reaches `argsort(pattern)`, a call missing `utils.argsort`'s
required `dtype` argument, which raises `TypeError`. -/
theorem C7_sorted_by_pattern_code_bug :
    exT23.shape.2 = 3 ∧
    exT23.len = 2 ∧
    exT23.sorted_by_pattern [1, 2, 0] = .error .valueError ∧
    exT23.sorted_by_pattern [1, 0] = .error .typeError := by
  decide

/-- C8: `dropped_col`/`dropped_row` are not non-mutating: `copy.copy`
copies the instance `__dict__` shallowly, so the copy shares the `_data`
dict (and the `Seq` objects in it) with the receiver, and the in-place
`drop_col`/`drop_row` is visible through the receiver.  On a 2-column,
1-row table both calls leave the receiver equal to the returned table and
different from its original value. -/
theorem C8_dropped_mutates_receiver :
    exT21.dropped_col "a" = .ok (exT21DroppedCol, exT21DroppedCol) ∧
    exT21DroppedCol ≠ exT21 ∧
    exT21DroppedCol.cols = ["b"] ∧
    exT21.dropped_row 0 = .ok (exT21DroppedRow, exT21DroppedRow) ∧
    exT21DroppedRow ≠ exT21 ∧
    exT21DroppedRow.shape.2 = 0 := by
  decide

/-- C10: `len(table)` is the column count (`shape[0]`), and iteration with
the `__iter__`/`__next__` protocol yields exactly the rows
`i(0), ..., i(len - 1)`: when the (smooth) table has at least as many rows
as columns, iteration stops after `column_count` rows; when it has fewer,
the first out-of-range `i(k)` raises `IndexError`.  Consequently
`contains_row` (the membership scan `union` builds on) examines only the
first `column_count` rows. -/
theorem C10_iteration_bound (t : Table) (row : List Val) (hs : t.isSmooth = true) :
    t.len = (Table.shape t).1 ∧
    (t.len ≤ (Table.shape t).2 →
      t.iterRows = .ok ((List.range t.len).map (Table.rowAtD t))) ∧
    ((Table.shape t).2 < t.len → t.iterRows = .error .indexError) ∧
    (row.length = (Table.shape t).1 → t.len ≤ (Table.shape t).2 →
      t.contains_row row = .ok (decide (row ∈ (List.range t.len).map (Table.rowAtD t)))) := by
  have hfst := Table.shape_fst t
  refine ⟨by rw [Table.len, hfst], ?_, ?_, ?_⟩
  · intro hle
    exact mapM_ok _ _ _
      (fun k hk => t.i_ok k hs (lt_of_lt_of_le (List.mem_range.mp hk) hle))
  · intro hlt
    have hne : t.data ≠ [] := by
      intro h0
      rw [Table.len, h0] at hlt
      simp at hlt
    unfold Table.iterRows
    have hmn : t.len = (Table.shape t).2 + ((t.len - (Table.shape t).2 - 1) + 1) := by
      omega
    rw [hmn, List.range_add, List.range_succ_eq_map, List.map_cons]
    apply mapM_error_at t.i _ _ _ _
    · intro a ha
      exact ⟨_, t.i_ok a hs (List.mem_range.mp ha)⟩
    · simpa using t.i_error ((Table.shape t).2) hs hne (le_refl _)
  · intro hrow hle
    unfold Table.contains_row
    rw [if_neg (by omega)]
    exact t.containsRowGo_ok row hs _
      (fun k hk => lt_of_lt_of_le (List.mem_range.mp hk) hle)

/-- Witness for C10: the 2-column, 3-row table `exT23` iterates exactly
its first two rows, and `contains_row` fails to see its third row. -/
theorem C10_iteration_bound_witness :
    (exT23.len = (Table.shape exT23).1 ∧
    (exT23.len ≤ (Table.shape exT23).2 →
      exT23.iterRows = .ok ((List.range exT23.len).map (Table.rowAtD exT23))) ∧
    ((Table.shape exT23).2 < exT23.len → exT23.iterRows = .error .indexError) ∧
    (([Val.vInt 3, Val.vInt 6]).length = (Table.shape exT23).1 →
      exT23.len ≤ (Table.shape exT23).2 →
      exT23.contains_row [Val.vInt 3, Val.vInt 6] =
        .ok (decide ([Val.vInt 3, Val.vInt 6] ∈
          (List.range exT23.len).map (Table.rowAtD exT23))))) ∧
    exT23.contains_row [Val.vInt 3, Val.vInt 6] = .ok false ∧
    exT23.i 2 = .ok [Val.vInt 3, Val.vInt 6] :=
  ⟨C10_iteration_bound exT23 [Val.vInt 3, Val.vInt 6] (by decide), by decide, by decide⟩

/-- C9: `Seq.append`'s body is just `self.__data.append(value)`: despite
the docstring (and the spec), no type check happens, and appending the
`str` value `"x"` to an `int` column succeeds and stores the value. -/
theorem C9_append_unchecked :
    Seq.append ⟨"a", .dInt, []⟩ (.vStr "x") = ⟨"a", .dInt, [.vStr "x"]⟩ ∧
    isinstanceV (.vStr "x") .dInt = false := by
  decide

end PyAxols
